import Mathlib

/-!
Verification of the Potion client core (a client-side object-mapping layer
for the "Potion JSON" hypermedia convention).  Definitions are shallow
embeddings of the TypeScript source: `src/core/potion.ts` (the modern core)
and the accompanying item/pagination module.  Asynchronous promise chains
are modelled as sequential state-passing computations: the runtime is a
single-threaded cooperative scheduler, so a run in which every continuation
completes before the next one starts is an admissible schedule.  JavaScript
object identity is modelled with explicit heaps of addressed objects
wherever aliasing or in-place mutation matters.
-/

/-- Single-quote character, used to build the error-message strings of the
source without writing a quote character in the Lean source text. -/
def squote : String := String.singleton (Char.ofNat 39)

/-! ### Association lists

JavaScript `Map`s and plain objects are modelled as association lists in
insertion order.  `aGet` is `Map.get`/property lookup, `aSet` is
`Map.set`/property assignment (update in place, else append), `aDel` is
`Map.delete`. -/

/-- Lookup of a key in an association list (JS `Map.get` / property read). -/
def aGet {α : Type} : List (String × α) → String → Option α
  | [], _ => none
  | kv :: rest, k => if kv.1 = k then some kv.2 else aGet rest k

/-- Insertion or update of a key (JS `Map.set` / property write): an existing
binding is updated in place, a new key is appended at the end. -/
def aSet {α : Type} : List (String × α) → String → α → List (String × α)
  | [], k, v => [(k, v)]
  | kv :: rest, k, v => if kv.1 = k then (k, v) :: rest else kv :: aSet rest k v

/-- Removal of a key (JS `Map.delete` / `delete obj[k]`). -/
def aDel {α : Type} (l : List (String × α)) (k : String) : List (String × α) :=
  l.filter (fun kv => kv.1 ≠ k)

theorem aGet_aSet_self {α : Type} (l : List (String × α)) (k : String) (v : α) :
    aGet (aSet l k v) k = some v := by
  induction l with
  | nil => simp [aGet, aSet]
  | cons kv rest ih =>
      by_cases h : kv.1 = k
      · simp [aSet, aGet, h]
      · simp [aSet, aGet, h, ih]

theorem aGet_aSet_ne {α : Type} (l : List (String × α)) (k k' : String) (v : α)
    (h : k ≠ k') : aGet (aSet l k v) k' = aGet l k' := by
  induction l with
  | nil => simp [aGet, aSet, h]
  | cons kv rest ih =>
      by_cases hk : kv.1 = k
      · simp [aSet, aGet, hk, h]
      · simp only [aSet, if_neg hk]
        by_cases hk' : kv.1 = k'
        · simp [aGet, hk']
        · simp [aGet, hk', ih]

theorem aGet_aDel_self {α : Type} (l : List (String × α)) (k : String) :
    aGet (aDel l k) k = none := by
  induction l with
  | nil => simp [aGet, aDel]
  | cons kv rest ih =>
      by_cases h : kv.1 = k
      · simpa [aDel, h] using ih
      · simpa [aDel, aGet, h] using ih

/-- A fresh insertion (key not previously bound) preserves every existing
binding. -/
theorem aGet_aSet_of_get_none {α : Type} (l : List (String × α)) (k k' : String)
    (v v' : α) (hnone : aGet l k = none) (hbound : aGet l k' = some v') :
    aGet (aSet l k v) k' = some v' := by
  have hne : k ≠ k' := by
    intro h
    rw [h] at hnone
    rw [hnone] at hbound
    exact Option.noConfusion hbound
  rw [aGet_aSet_ne l k k' v hne]
  exact hbound

/-! ### Naming codec

Modelled from the spec: the `utils` module of the repository (which holds
`toCamelCase`, `toSnakeCase`/`fromCamelCase`, `omap`, `deepOmap`,
`mapToObject`, `entries`, `MemCache`) is not under `src/`; only its import
list and the spec contract (section 4.1) are visible.  The codec is
modelled as the standard snake_case ⇄ camelCase transforms matching the
spec's example (`fooBar` ⇄ `foo_bar`): total, pure, applied only to keys. -/

/-- Uppercase/lowercase ASCII letter pairs, used to model case conversion
without machine-integer arithmetic. -/
def azPairs : List (Char × Char) :=
  [('A', 'a'), ('B', 'b'), ('C', 'c'), ('D', 'd'), ('E', 'e'), ('F', 'f'),
   ('G', 'g'), ('H', 'h'), ('I', 'i'), ('J', 'j'), ('K', 'k'), ('L', 'l'),
   ('M', 'm'), ('N', 'n'), ('O', 'o'), ('P', 'p'), ('Q', 'q'), ('R', 'r'),
   ('S', 's'), ('T', 't'), ('U', 'u'), ('V', 'v'), ('W', 'w'), ('X', 'x'),
   ('Y', 'y'), ('Z', 'z')]

/-- Lowercasing of an ASCII uppercase letter; other characters pass through. -/
def lowerAZ (c : Char) : Char :=
  ((azPairs.find? (fun p => p.1 == c)).map (fun p => p.2)).getD c

/-- Uppercasing of an ASCII lowercase letter; other characters pass through. -/
def upperAZ (c : Char) : Char :=
  ((azPairs.find? (fun p => p.2 == c)).map (fun p => p.1)).getD c

/-- Whether a character is an ASCII uppercase letter. -/
def isAZupper (c : Char) : Bool := azPairs.any (fun p => p.1 == c)

/-- Modelled from the spec: snake_case → camelCase character scan (an
underscore is dropped and upper-cases the next character). -/
def camelChars : Bool → List Char → List Char
  | _, [] => []
  | up, c :: rest =>
      if c = '_' then camelChars true rest
      else (if up then upperAZ c else c) :: camelChars false rest

/-- Modelled from the spec: `toCamelCase` of the missing `utils` module. -/
def toCamelCase (s : String) : String := String.mk (camelChars false s.toList)

/-- Modelled from the spec: camelCase → snake_case for non-initial
characters (an uppercase letter becomes an underscore plus its lowercase). -/
def snakeChars : List Char → List Char
  | [] => []
  | c :: rest =>
      if isAZupper c then '_' :: lowerAZ c :: snakeChars rest
      else c :: snakeChars rest

/-- Modelled from the spec: `fromCamelCase` of the missing `utils` module
(the wire-casing transform; the first character is lowercased without a
leading underscore, as in common snake-case converters and as required for
round-tripping the spec's `fooBar` ⇄ `foo_bar` example). -/
def fromCamelCase (s : String) : String :=
  match s.toList with
  | [] => ""
  | c :: rest => String.mk (lowerAZ c :: snakeChars rest)

/-- Modelled from the spec: `toSnakeCase` of the missing `utils` module is
the same wire-casing transform (`potion.ts` imports it under this name). -/
def toSnakeCase (s : String) : String := fromCamelCase s

example : toCamelCase "foo_bar" = "fooBar" := by decide
example : fromCamelCase "fooBar" = "foo_bar" := by decide

/-! ### JS string searching -/

/-- First index at which `sub` occurs in `l`, if any (the scan behind JS
`String.prototype.indexOf`). -/
def strIndexOf? : List Char → List Char → Option Nat
  | [], sub => if sub.isPrefixOf [] then some 0 else none
  | c :: t, sub =>
      if sub.isPrefixOf (c :: t) then some 0
      else (strIndexOf? t sub).map (· + 1)

/-- JS `uri.indexOf(sub)`: the first occurrence index, `-1` when absent. -/
def jsIndexOf (s sub : String) : Int :=
  match strIndexOf? s.toList sub.toList with
  | some n => (n : Int)
  | none => -1

/-- Whether `sub` occurs as a contiguous run inside `l`. -/
def listContains : List Char → List Char → Bool
  | [], sub => sub.isPrefixOf []
  | c :: t, sub => sub.isPrefixOf (c :: t) || listContains t sub

/-- Whether `sub` occurs inside `s` (the claim-level reading of "the prefix
is already present"). -/
def strContains (s sub : String) : Bool := listContains s.toList sub.toList

theorem strIndexOf?_none_iff (l sub : List Char) :
    strIndexOf? l sub = none ↔ listContains l sub = false := by
  induction l with
  | nil =>
      by_cases h : sub.isPrefixOf ([] : List Char)
      · simp [strIndexOf?, listContains, h]
      · simp [strIndexOf?, listContains, h]
  | cons c t ih =>
      by_cases h : sub.isPrefixOf (c :: t)
      · simp [strIndexOf?, listContains, h]
      · simp [strIndexOf?, listContains, h, ih]

theorem jsIndexOf_neg_one_iff (s sub : String) :
    jsIndexOf s sub = -1 ↔ strContains s sub = false := by
  unfold jsIndexOf strContains
  cases h : strIndexOf? s.toList sub.toList with
  | none =>
      constructor
      · intro _
        exact (strIndexOf?_none_iff s.toList sub.toList).mp h
      · intro _
        rfl
  | some n =>
      constructor
      · intro hc
        exact absurd hc (by simp)
      · intro hc
        have hn := (strIndexOf?_none_iff s.toList sub.toList).mpr hc
        rw [h] at hn
        exact Option.noConfusion hn

theorem strIndexOf?_zero_of_isPrefixOf (l sub : List Char)
    (h : sub.isPrefixOf l = true) : strIndexOf? l sub = some 0 := by
  cases l with
  | nil => simp [strIndexOf?, h]
  | cons c t => simp [strIndexOf?, h]

/-! ### decodeURIComponent

`parseURI` first applies JS `decodeURIComponent`.  The model decodes
`%XX` percent escapes of ASCII bytes and treats every other use of the
percent character as malformed (`none`, the thrown `URIError`).  Escapes
of bytes at or above 0x80 — which the JS builtin either assembles into
multi-byte UTF-8 sequences or rejects — are outside this model; every
theorem below that involves decoding therefore constrains its input to
strings on which the model and the builtin agree (in particular
percent-free strings, where both are the identity). -/

/-- Hex digit values, as a lookup table. -/
def hexPairs : List (Char × Nat) :=
  [('0', 0), ('1', 1), ('2', 2), ('3', 3), ('4', 4), ('5', 5), ('6', 6),
   ('7', 7), ('8', 8), ('9', 9), ('a', 10), ('b', 11), ('c', 12), ('d', 13),
   ('e', 14), ('f', 15), ('A', 10), ('B', 11), ('C', 12), ('D', 13),
   ('E', 14), ('F', 15)]

/-- Value of a hex digit character, if it is one. -/
def hexVal? (c : Char) : Option Nat :=
  (hexPairs.find? (fun p => p.1 == c)).map (fun p => p.2)

/-- Percent-decoding scan: characters other than the percent sign pass
through, a percent sign must start an ASCII `%XX` escape. -/
def percentDecodeChars : List Char → Option (List Char)
  | [] => some []
  | c :: rest =>
      if c = '%' then
        match rest with
        | h1 :: h2 :: rest1 =>
            match hexVal? h1, hexVal? h2 with
            | some a, some b0 =>
                if a * 16 + b0 < 128 then
                  (percentDecodeChars rest1).map
                    (fun cs => Char.ofNat (a * 16 + b0) :: cs)
                else none
            | _, _ => none
        | _ => none
      else (percentDecodeChars rest).map (fun cs => c :: cs)

/-- Model of JS `decodeURIComponent`: `none` models a thrown `URIError`. -/
def decodeURIComponent (s : String) : Option String :=
  (percentDecodeChars s.toList).map String.mk

/-- On percent-free strings `decodeURIComponent` is the identity. -/
theorem percentDecodeChars_cons_ne (c : Char) (rest : List Char)
    (hc : ¬(c = '%')) :
    percentDecodeChars (c :: rest) =
      (percentDecodeChars rest).map (fun cs => c :: cs) := by
  cases rest with
  | nil => simp [percentDecodeChars, hc]
  | cons h1 t1 =>
      cases t1 with
      | nil => simp [percentDecodeChars, hc]
      | cons h2 t2 => simp [percentDecodeChars, hc]

theorem decodeURIComponent_of_no_percent (s : String)
    (h : s.toList.all (fun c => c != '%') = true) :
    decodeURIComponent s = some s := by
  unfold decodeURIComponent
  have hmain : ∀ l : List Char, l.all (fun c => c != '%') = true →
      percentDecodeChars l = some l := by
    intro l
    induction l with
    | nil => intro _; rfl
    | cons c rest ih =>
        intro hall
        simp only [List.all_cons, Bool.and_eq_true] at hall
        have hc : ¬(c = '%') := by
          intro hceq
          rw [hceq] at hall
          simp at hall
        rw [percentDecodeChars_cons_ne c rest hc, ih hall.2]
        rfl
  rw [hmain s.toList h]
  cases s
  rfl

/-! ### Wire and domain values -/

/-- Wire JSON values, as received from or sent to the transport
collaborator.  Numbers are modelled as integers (every number the claims
exercise — epoch milliseconds, identifiers, page numbers — is integral). -/
inductive JSON where
  | null
  | bool (b : Bool)
  | num (n : Int)
  | str (s : String)
  | arr (elems : List JSON)
  | obj (fields : List (String × JSON))

/-- Domain values produced by the inbound transform: scalars, dates
(epoch milliseconds; `dateInvalid` coarsely models `new Date(x)` on the
non-numeric payloads no claim exercises), arrays, plain objects, and Item
instances represented by their heap address (JS object identity). -/
inductive PValue where
  | null
  | bool (b : Bool)
  | num (n : Int)
  | str (s : String)
  | date (ms : Int)
  | dateInvalid
  | arr (elems : List PValue)
  | obj (fields : List (String × PValue))
  | item (addr : Nat)

/-- Property access `json.k` returning a string, as in the source's
`typeof json.$uri === 'string'` tests. -/
def getStr (fields : List (String × JSON)) (k : String) : Option String :=
  match aGet fields k with
  | some (JSON.str s) => some s
  | _ => none

/-! ### Potion configuration and URI resolution -/

/-- The per-client configuration: `host`, the API-wide prefix (source
field `prefix`), and the resource registry in registration order, mapping
a URI prefix to a resource type (identified by a number standing for the
registered constructor). -/
structure Cfg where
  host : String
  apiPrefix : String
  resources : List (String × Nat)

/-- Result of `parseURI` (interface `ParsedURI` of the source; `resource`
is the registered type's identifier). -/
structure ParsedURI where
  uri : String
  resource : Nat
  params : List String

/-- JS `s.split('/')` on character lists. -/
def splitOnSlash : List Char → List (List Char)
  | [] => [[]]
  | c :: rest =>
      if c = '/' then [] :: splitOnSlash rest
      else
        match splitOnSlash rest with
        | [] => [[c]]
        | h :: t => (c :: h) :: t

/-- JS `s.split('/')`. -/
def jsSplitSlash (s : String) : List String :=
  (splitOnSlash s.toList).map String.mk

/-- JS `pre.length` / `s.substring(n)` / `startsWith`, on characters. -/
def strLen (s : String) : Nat := s.toList.length

/-- JS `s.substring(n)` (drop the first `n` characters). -/
def strDrop (s : String) (n : Nat) : String := String.mk (s.toList.drop n)

/-- Whether `s` starts with `pre`. -/
def strStarts (s pre : String) : Bool := pre.toList.isPrefixOf s.toList

/-- The `Uninterpretable or unknown resource` error message of `parseURI`. -/
def unknownURIMsg (uri : String) : String :=
  "URI " ++ squote ++ uri ++ squote ++
    " is an uninterpretable or unknown potion resource."

/-- The thrown `URIError` of JS `decodeURIComponent` on malformed input. -/
def uriErrorMsg : String := "URIError: URI malformed"

/-- The registry scan of `parseURI`: the `for ... of entries(this.resources)`
loop returning the first registered prefix `resourceURI` with
`uri.indexOf(resourceURI + "/") === 0`. -/
def scanResources (stripped : String) : List (String × Nat) → Option (String × Nat)
  | [] => none
  | r :: rest =>
      if jsIndexOf stripped (r.1 ++ "/") = 0 then some r
      else scanResources stripped rest

/-- `PotionBase.parseURI` (src/core/potion.ts, lines 227–246): decode the
URI, strip the API-wide prefix when it sits at position 0, scan the
registered resource prefixes, and either return the local URI, the
resource and the remainder path split on `/`, or throw the
unknown-resource error (modelled as `Except.error`). -/
def parseURI (cfg : Cfg) (uri0 : String) : Except String ParsedURI :=
  match decodeURIComponent uri0 with
  | none => .error uriErrorMsg
  | some uri1 =>
      let uri := if jsIndexOf uri1 cfg.apiPrefix = 0
                 then strDrop uri1 (strLen cfg.apiPrefix) else uri1
      match scanResources uri cfg.resources with
      | some r => .ok ⟨uri, r.2, jsSplitSlash (strDrop uri (strLen r.1 + 1))⟩
      | none => .error (unknownURIMsg uri)

/-- The claim-side description of `parseURI` (spec section 4.3): strip the
API-wide prefix when the URI starts with it, then find the first
registered prefix `p` such that the stripped URI starts with `p ++ "/"`,
returning the local URI, the resource type, and the remainder path split
on `/`; otherwise the unknown-resource error. -/
def parseURISpec (cfg : Cfg) (uri0 : String) : Except String ParsedURI :=
  let stripped := if strStarts uri0 cfg.apiPrefix
                  then strDrop uri0 (strLen cfg.apiPrefix) else uri0
  match cfg.resources.find? (fun r => strStarts stripped (r.1 ++ "/")) with
  | some r => .ok ⟨stripped, r.2, jsSplitSlash (strDrop stripped (strLen r.1 + 1))⟩
  | none => .error (unknownURIMsg stripped)

theorem isPrefixOf_of_strIndexOf?_zero (l sub : List Char)
    (h : strIndexOf? l sub = some 0) : sub.isPrefixOf l = true := by
  cases l with
  | nil =>
      by_cases hp : sub.isPrefixOf ([] : List Char)
      · exact hp
      · simp [strIndexOf?, hp] at h
  | cons c t =>
      by_cases hp : sub.isPrefixOf (c :: t)
      · exact hp
      · exfalso
        simp [strIndexOf?, hp] at h

theorem jsIndexOf_zero_iff (s sub : String) :
    jsIndexOf s sub = 0 ↔ sub.toList.isPrefixOf s.toList = true := by
  constructor
  · intro h
    unfold jsIndexOf at h
    cases hx : strIndexOf? s.toList sub.toList with
    | none => rw [hx] at h; exact absurd h (by simp)
    | some n =>
        rw [hx] at h
        have hcast : (n : Int) = 0 := h
        have hn : n = 0 := by exact_mod_cast hcast
        rw [hn] at hx
        exact isPrefixOf_of_strIndexOf?_zero s.toList sub.toList hx
  · intro h
    unfold jsIndexOf
    rw [strIndexOf?_zero_of_isPrefixOf s.toList sub.toList h]
    rfl

theorem strStarts_iff_jsIndexOf_zero (s pre : String) :
    strStarts s pre = true ↔ jsIndexOf s pre = 0 := by
  unfold strStarts
  exact (jsIndexOf_zero_iff s pre).symm

theorem strStarts_false_of_not_jsIndexOf_zero (s pre : String)
    (h : ¬(jsIndexOf s pre = 0)) : strStarts s pre = false := by
  cases hb : strStarts s pre with
  | false => rfl
  | true => exact absurd ((strStarts_iff_jsIndexOf_zero s pre).mp hb) h

theorem scanResources_eq_find (stripped : String) (l : List (String × Nat)) :
    scanResources stripped l =
      l.find? (fun r => strStarts stripped (r.1 ++ "/")) := by
  induction l with
  | nil => rfl
  | cons r rest ih =>
      by_cases h : jsIndexOf stripped (r.1 ++ "/") = 0
      · have hs : strStarts stripped (r.1 ++ "/") = true :=
          (strStarts_iff_jsIndexOf_zero stripped (r.1 ++ "/")).mpr h
        simp [scanResources, h, List.find?, hs]
      · have hs : strStarts stripped (r.1 ++ "/") = false :=
          strStarts_false_of_not_jsIndexOf_zero stripped (r.1 ++ "/") h
        simp [scanResources, h, List.find?, hs, ih]

/-- On inputs fixed by `decodeURIComponent`, the implementation agrees with
the claim-side description. -/
theorem parseURI_eq_spec (cfg : Cfg) (uri0 : String)
    (hdec : decodeURIComponent uri0 = some uri0) :
    parseURI cfg uri0 = parseURISpec cfg uri0 := by
  by_cases h : jsIndexOf uri0 cfg.apiPrefix = 0
  · have hs : strStarts uri0 cfg.apiPrefix = true :=
      (strStarts_iff_jsIndexOf_zero uri0 cfg.apiPrefix).mpr h
    simp [parseURI, parseURISpec, hdec, h, hs, scanResources_eq_find]
  · have hs : strStarts uri0 cfg.apiPrefix = false :=
      strStarts_false_of_not_jsIndexOf_zero uri0 cfg.apiPrefix h
    simp [parseURI, parseURISpec, hdec, h, hs, scanResources_eq_find]

/-! ### Decode state

The inbound transform (`fromPotionJSON`) is asynchronous in the source; it
is modelled as a sequential state-passing interpreter (one admissible
schedule of the single-threaded cooperative runtime: each nested decode
settles before the next sibling starts).  Shared state is the Identity
Cache and a heap of constructed Item instances; JS object identity is the
heap address. -/

/-- A constructed Item instance: its resource type and its own enumerable
properties.  Modelled from the spec (the `Item` class of the missing
`./item` module): the constructor assigns the given properties onto the
fresh instance. -/
structure ItemObj where
  resType : Nat
  props : List (String × PValue)

/-- State threaded through a decode run: the Identity Cache (canonical
local URI ↦ heap address; the default `MemCache` is modelled from the
spec's section 4.2 contract as an unbounded mapping) and the heap of Item
instances (address = index, construction appends). -/
structure DecState where
  cache : List (String × Nat)
  heap : List ItemObj

/-- Failure values a JS promise can carry: an `Error` with a message, a
raw string, or anything else. -/
inductive JSReason where
  | jsError (message : String)
  | jsString (s : String)
  | other

/-- The generic per-URI fallback message of the GET failure handler
(src/core/potion.ts line 177). -/
def genericErrMsg (uri : String) : String :=
  "An error occurred while Potion tried to retrieve a resource from " ++
    squote ++ uri ++ squote ++ "."

/-- The failure normalization of the GET settlement handler: the error's
message, else the raw string, else the generic per-URI fallback. -/
def normalizeReason (uri : String) (r : JSReason) : String :=
  match r with
  | .jsError m => m
  | .jsString m => m
  | .other => genericErrMsg uri

/-- URI normalization of `fetch` (lines 110–114): prepend the API-wide
prefix when `uri.indexOf(prefix) === -1`. -/
def normalizeURI (apiPre uri : String) : String :=
  if jsIndexOf uri apiPre = -1 then apiPre ++ uri else uri

/-- The transport collaborator for decode runs: maps the requested URL to
a response body, or to a rejection reason. -/
def Server : Type := String → Except JSReason JSON

/-- Fuel-exhaustion marker of the interpreter (a model artifact: the
source recursion is bounded by the data; theorems only constrain runs that
return `.ok` or a source-produced `.error`). -/
def fuelMsg : String := "model: out of fuel"

/-- Element-wise decode of an array (`Promise.all(json.map(...))`), with
the recursive decoder passed in; order is preserved. -/
def decodeListWith (rec : JSON → DecState → Except String (PValue × DecState)) :
    List JSON → DecState → Except String (List PValue × DecState)
  | [], s => .ok ([], s)
  | j :: rest, s =>
      match rec j s with
      | .error e => .error e
      | .ok (v, s1) =>
          match decodeListWith rec rest s1 with
          | .error e => .error e
          | .ok (vs, s2) => .ok (v :: vs, s2)

/-- Property decode of a `$uri`-carrying object (lines 305–315): the
`$uri` key contributes the parsed local URI directly; every other key is
recursively decoded and renamed to camelCase. -/
def decodePropsUriWith (rec : JSON → DecState → Except String (PValue × DecState))
    (uriStr : String) :
    List (String × JSON) → DecState → Except String (List (String × PValue) × DecState)
  | [], s => .ok ([], s)
  | (k, v) :: rest, s =>
      if k = "$uri" then
        match decodePropsUriWith rec uriStr rest s with
        | .error e => .error e
        | .ok (kvs, s1) => .ok ((k, .str uriStr) :: kvs, s1)
      else
        match rec v s with
        | .error e => .error e
        | .ok (pv, s1) =>
            match decodePropsUriWith rec uriStr rest s1 with
            | .error e => .error e
            | .ok (kvs, s2) => .ok ((toCamelCase k, pv) :: kvs, s2)

/-- Property decode of a plain object (lines 369–381): every key is
recursively decoded and renamed to camelCase. -/
def decodePropsGenWith (rec : JSON → DecState → Except String (PValue × DecState)) :
    List (String × JSON) → DecState → Except String (List (String × PValue) × DecState)
  | [], s => .ok ([], s)
  | (k, v) :: rest, s =>
      match rec v s with
      | .error e => .error e
      | .ok (pv, s1) =>
          match decodePropsGenWith rec rest s1 with
          | .error e => .error e
          | .ok (kvs, s2) => .ok ((toCamelCase k, pv) :: kvs, s2)

/-- Collection of the decoded key/value pairs into the `properties` map
(`Map.set` semantics: later writes to the same key overwrite). -/
def buildMap (kvs : List (String × PValue)) : List (String × PValue) :=
  kvs.foldl (fun m kv => aSet m kv.1 kv.2) []

/-- The `$id` computation (lines 317–319): the first URI param, parsed as
an integer when it is all digits (`Number.isInteger` is always false on a
string, so the regex test decides), else kept as the raw string. -/
def idValue (params : List String) : PValue :=
  let id := params.headD ""
  if (decide (0 < strLen id) && id.toList.all (fun c => c.isDigit)) then
    .num ((id.toList.foldl (fun acc c => acc * 10 + (c.toNat - 48)) 0 : Nat) : Int)
  else .str id

/-- `Object.assign(item, mapToObject(properties))`: merge the decoded
properties into the instance stored at `addr`, leaving the cache alone. -/
def heapMerge (s : DecState) (addr : Nat) (newProps : List (String × PValue)) :
    DecState :=
  let it := s.heap.getD addr ⟨0, []⟩
  let merged : ItemObj :=
    ⟨it.resType, newProps.foldl (fun m kv => aSet m kv.1 kv.2) it.props⟩
  { s with heap := s.heap.set addr merged }

mutual

/-- The `$schema` branch (lines 336–340): `deepOmap` renaming every key to
camelCase without resolving anything (modelled from the spec's section 4.1
description of the recursive key rename). -/
def deepCamel : JSON → PValue
  | .null => .null
  | .bool b => .bool b
  | .num n => .num n
  | .str s => .str s
  | .arr l => .arr (deepCamelList l)
  | .obj fs => .obj (deepCamelFields fs)

/-- Array part of `deepCamel`. -/
def deepCamelList : List JSON → List PValue
  | [] => []
  | j :: t => deepCamel j :: deepCamelList t

/-- Object part of `deepCamel`. -/
def deepCamelFields : List (String × JSON) → List (String × PValue)
  | [] => []
  | kv :: t => (toCamelCase kv.1, deepCamel kv.2) :: deepCamelFields t

end

/-- The nested `this.fetch(uri, {cache: true, method: 'GET'})` issued by
the `$ref` branch (lines 359–362), in the sequential schedule: the fetch
normalizes the URI, consults the Identity Cache under the caller-supplied
key, and otherwise performs the transport request and decodes its body
(`deserialize`); a transport rejection is normalized by the GET settlement
handler.  The Pending Request Table is invisible here because in a
sequential schedule every request settles before another fetch call is
made (its bookkeeping is verified separately on the fetch model). -/
def cachedGETWith (rec : JSON → DecState → Except String (PValue × DecState))
    (cfg : Cfg) (server : Server) (uri : String) (s : DecState) :
    Except String (PValue × DecState) :=
  let nuri := normalizeURI cfg.apiPrefix uri
  match aGet s.cache uri with
  | some addr => .ok (.item addr, s)
  | none =>
      match server (cfg.host ++ nuri) with
      | .error reason => .error (normalizeReason nuri reason)
      | .ok body => rec body s

/-- The `$uri`-object branch of `fromPotionJSON` (lines 295–335), with the
recursive decoder passed in: pre-register a placeholder instance in the
Identity Cache if the resolved URI is absent (before resolving any nested
references), decode the properties, set `$id` from the first URI param,
and then merge into the instance found in the cache — or, if the cache no
longer holds the URI, construct a fresh instance and cache it. -/
def decodeUriObjWith
    (rec : JSON → DecState → Except String (PValue × DecState))
    (pu : ParsedURI) (fields : List (String × JSON)) (s : DecState) :
    Except String (PValue × DecState) :=
  let s1 := if (aGet s.cache pu.uri).isSome then s
            else { s with
                   cache := aSet s.cache pu.uri s.heap.length,
                   heap := s.heap ++ [⟨pu.resource, []⟩] }
  match decodePropsUriWith rec pu.uri fields s1 with
  | .error e => .error e
  | .ok (kvs, s2) =>
      let finalProps := aSet (buildMap kvs) "$id" (idValue pu.params)
      match aGet s2.cache pu.uri with
      | some addr => .ok (.item addr, heapMerge s2 addr finalProps)
      | none =>
          .ok (.item s2.heap.length,
               { s2 with
                 cache := aSet s2.cache pu.uri s2.heap.length,
                 heap := s2.heap ++ [⟨pu.resource, finalProps⟩] })

/-- `PotionBase.fromPotionJSON` (src/core/potion.ts lines 272–385) as a
fuel-indexed sequential interpreter.  Branch order follows the source:
arrays; objects with a string `$uri` (resolve, pre-register a placeholder
if absent, decode properties, set `$id`, then merge into the cached
instance or construct and cache a fresh one); objects with a string
`$schema` (deep key rename only); single-key objects (`$ref` — the
self-reference marker passes through, otherwise a cached GET fetch —
and `$date`); any other object decodes as a plain mapping; scalars pass
through.  The `properties` map is assembled from the per-key results
(model note: the source inserts `$uri` and `$id` synchronously and the
other keys on promise settlement, which permutes insertion order but
yields the same key ↦ value map). -/
def fromPotionJSON (cfg : Cfg) (server : Server) :
    Nat → JSON → DecState → Except String (PValue × DecState)
  | 0, _, _ => .error fuelMsg
  | fuel+1, json, s =>
      match json with
      | .null => .ok (.null, s)
      | .bool b => .ok (.bool b, s)
      | .num n => .ok (.num n, s)
      | .str t => .ok (.str t, s)
      | .arr items =>
          match decodeListWith (fromPotionJSON cfg server fuel) items s with
          | .error e => .error e
          | .ok (vs, s1) => .ok (.arr vs, s1)
      | .obj fields =>
          match getStr fields "$uri" with
          | some u =>
              match parseURI cfg u with
              | .error e => .error e
              | .ok pu =>
                  decodeUriObjWith (fromPotionJSON cfg server fuel) pu fields s
          | none =>
              match getStr fields "$schema" with
              | some _ => .ok (deepCamel (.obj fields), s)
              | none =>
                  if fields.length = 1 then
                    match getStr fields "$ref" with
                    | some r =>
                        if r = "#" then .ok (.str "#", s)
                        else
                          match parseURI cfg r with
                          | .error e => .error e
                          | .ok pu =>
                              cachedGETWith (fromPotionJSON cfg server fuel)
                                cfg server pu.uri s
                    | none =>
                        match aGet fields "$date" with
                        | some (.num m) => .ok (.date m, s)
                        | some _ => .ok (.dateInvalid, s)
                        | none =>
                            match decodePropsGenWith
                                (fromPotionJSON cfg server fuel) fields s with
                            | .error e => .error e
                            | .ok (kvs, s1) => .ok (.obj (buildMap kvs), s1)
                  else
                    match decodePropsGenWith
                        (fromPotionJSON cfg server fuel) fields s with
                    | .error e => .error e
                    | .ok (kvs, s1) => .ok (.obj (buildMap kvs), s1)

/-! ### Cache monotonicity

The decode protocol only ever inserts cache entries under keys that are
absent (the placeholder pre-registration and the construct-and-cache
fallback); it never removes or rebinds a key.  Hence every existing
binding survives a decode — the invariant behind identity stability. -/

/-- Every cache binding of `s` still holds in `s'`. -/
def cachePreserved (s s' : DecState) : Prop :=
  ∀ u a, aGet s.cache u = some a → aGet s'.cache u = some a

theorem cachePreserved_refl (s : DecState) : cachePreserved s s :=
  fun _ _ h => h

theorem cachePreserved_trans {s1 s2 s3 : DecState}
    (h12 : cachePreserved s1 s2) (h23 : cachePreserved s2 s3) :
    cachePreserved s1 s3 :=
  fun u a h => h23 u a (h12 u a h)

theorem decodeListWith_cachePreserved
    (rec : JSON → DecState → Except String (PValue × DecState))
    (hrec : ∀ j s r, rec j s = .ok r → cachePreserved s r.2) :
    ∀ l s r, decodeListWith rec l s = .ok r → cachePreserved s r.2 := by
  intro l
  induction l with
  | nil =>
      intro s r h
      simp only [decodeListWith] at h
      injection h with h1
      rw [← h1]
      exact cachePreserved_refl s
  | cons j rest ihl =>
      intro s r h
      simp only [decodeListWith] at h
      split at h
      · exact absurd h (by simp)
      · rename_i v s1 h1
        split at h
        · exact absurd h (by simp)
        · rename_i vs s2 h2
          injection h with h3
          rw [← h3]
          exact cachePreserved_trans (hrec j s (v, s1) h1) (ihl s1 (vs, s2) h2)

theorem decodePropsUriWith_cachePreserved
    (rec : JSON → DecState → Except String (PValue × DecState))
    (hrec : ∀ j s r, rec j s = .ok r → cachePreserved s r.2) (uriStr : String) :
    ∀ l s r, decodePropsUriWith rec uriStr l s = .ok r → cachePreserved s r.2 := by
  intro l
  induction l with
  | nil =>
      intro s r h
      simp only [decodePropsUriWith] at h
      injection h with h1
      rw [← h1]
      exact cachePreserved_refl s
  | cons kv rest ihl =>
      intro s r h
      obtain ⟨k, v⟩ := kv
      simp only [decodePropsUriWith] at h
      split at h
      · split at h
        · exact absurd h (by simp)
        · rename_i kvs s1 h2
          injection h with h3
          rw [← h3]
          exact ihl s (kvs, s1) h2
      · split at h
        · exact absurd h (by simp)
        · rename_i pv s1 h1
          split at h
          · exact absurd h (by simp)
          · rename_i kvs s2 h2
            injection h with h3
            rw [← h3]
            exact cachePreserved_trans (hrec v s (pv, s1) h1)
              (ihl s1 (kvs, s2) h2)

theorem decodePropsGenWith_cachePreserved
    (rec : JSON → DecState → Except String (PValue × DecState))
    (hrec : ∀ j s r, rec j s = .ok r → cachePreserved s r.2) :
    ∀ l s r, decodePropsGenWith rec l s = .ok r → cachePreserved s r.2 := by
  intro l
  induction l with
  | nil =>
      intro s r h
      simp only [decodePropsGenWith] at h
      injection h with h1
      rw [← h1]
      exact cachePreserved_refl s
  | cons kv rest ihl =>
      intro s r h
      obtain ⟨k, v⟩ := kv
      simp only [decodePropsGenWith] at h
      split at h
      · exact absurd h (by simp)
      · rename_i pv s1 h1
        split at h
        · exact absurd h (by simp)
        · rename_i kvs s2 h2
          injection h with h3
          rw [← h3]
          exact cachePreserved_trans (hrec v s (pv, s1) h1)
            (ihl s1 (kvs, s2) h2)

/-- The placeholder pre-registration step preserves existing bindings
(it only fires when the key is absent). -/
theorem placeholder_cachePreserved (s : DecState) (pu : ParsedURI) :
    cachePreserved s
      (if (aGet s.cache pu.uri).isSome then s
       else { s with cache := aSet s.cache pu.uri s.heap.length,
                     heap := s.heap ++ [⟨pu.resource, []⟩] }) := by
  by_cases hx : (aGet s.cache pu.uri).isSome
  · rw [if_pos hx]
    exact cachePreserved_refl s
  · rw [if_neg hx]
    intro u a h
    have hnone : aGet s.cache pu.uri = none := by
      cases hg : aGet s.cache pu.uri with
      | none => rfl
      | some x => rw [hg] at hx; simp at hx
    exact aGet_aSet_of_get_none s.cache pu.uri u s.heap.length a hnone h

theorem decodeUriObjWith_cachePreserved
    (rec : JSON → DecState → Except String (PValue × DecState))
    (hrec : ∀ j s r, rec j s = .ok r → cachePreserved s r.2)
    (pu : ParsedURI) (fields : List (String × JSON)) :
    ∀ s r, decodeUriObjWith rec pu fields s = .ok r → cachePreserved s r.2 := by
  intro s r h
  simp only [decodeUriObjWith] at h
  split at h
  · exact absurd h (by simp)
  · rename_i kvs s2 h2
    have hpre1 := placeholder_cachePreserved s pu
    have hpre2 := decodePropsUriWith_cachePreserved rec hrec pu.uri fields _
      (kvs, s2) h2
    split at h
    · rename_i addr hm
      injection h with h1
      rw [← h1]
      exact cachePreserved_trans hpre1
        (cachePreserved_trans hpre2 (fun u a hb => hb))
    · rename_i hm
      injection h with h1
      rw [← h1]
      refine cachePreserved_trans hpre1 (cachePreserved_trans hpre2 ?_)
      intro u a hb
      exact aGet_aSet_of_get_none s2.cache pu.uri u s2.heap.length a hm hb

theorem cachedGETWith_cachePreserved
    (rec : JSON → DecState → Except String (PValue × DecState))
    (hrec : ∀ j s r, rec j s = .ok r → cachePreserved s r.2)
    (cfg : Cfg) (server : Server) (uri : String) :
    ∀ s r, cachedGETWith rec cfg server uri s = .ok r → cachePreserved s r.2 := by
  intro s r h
  simp only [cachedGETWith] at h
  split at h
  · rename_i addr hm
    injection h with h1
    rw [← h1]
    exact cachePreserved_refl s
  · rename_i hm
    split at h
    · exact absurd h (by simp)
    · rename_i body hs
      exact hrec body s r h

theorem fromPotionJSON_cachePreserved (cfg : Cfg) (server : Server) :
    ∀ fuel json s r, fromPotionJSON cfg server fuel json s = .ok r →
      cachePreserved s r.2 := by
  intro fuel
  induction fuel with
  | zero =>
      intro json s r h
      simp [fromPotionJSON] at h
  | succ fuel ih =>
      intro json s r h
      cases json with
      | null =>
          simp only [fromPotionJSON] at h
          injection h with h1
          rw [← h1]
          exact cachePreserved_refl s
      | bool b =>
          simp only [fromPotionJSON] at h
          injection h with h1
          rw [← h1]
          exact cachePreserved_refl s
      | num n =>
          simp only [fromPotionJSON] at h
          injection h with h1
          rw [← h1]
          exact cachePreserved_refl s
      | str t =>
          simp only [fromPotionJSON] at h
          injection h with h1
          rw [← h1]
          exact cachePreserved_refl s
      | arr items =>
          simp only [fromPotionJSON] at h
          split at h
          · exact absurd h (by simp)
          · rename_i vs s1 hd
            injection h with h1
            rw [← h1]
            exact decodeListWith_cachePreserved _ ih items s (vs, s1) hd
      | obj fields =>
          simp only [fromPotionJSON] at h
          split at h
          · rename_i u hu
            split at h
            · exact absurd h (by simp)
            · rename_i pu hp
              exact decodeUriObjWith_cachePreserved _ ih pu fields s r h
          · rename_i hu
            split at h
            · rename_i sch hsch
              injection h with h1
              rw [← h1]
              exact cachePreserved_refl s
            · rename_i hsch
              split at h
              · split at h
                · rename_i rs href
                  split at h
                  · injection h with h1
                    rw [← h1]
                    exact cachePreserved_refl s
                  · split at h
                    · exact absurd h (by simp)
                    · rename_i pu hp
                      exact cachedGETWith_cachePreserved _ ih cfg server
                        pu.uri s r h
                · rename_i href
                  split at h
                  · rename_i m hdt
                    injection h with h1
                    rw [← h1]
                    exact cachePreserved_refl s
                  · rename_i dv hdt hnotnum
                    injection h with h1
                    rw [← h1]
                    exact cachePreserved_refl s
                  · rename_i hdt
                    split at h
                    · exact absurd h (by simp)
                    · rename_i kvs s1 hg
                      injection h with h1
                      rw [← h1]
                      exact decodePropsGenWith_cachePreserved _ ih fields s
                        (kvs, s1) hg
              · split at h
                · exact absurd h (by simp)
                · rename_i kvs s1 hg
                  injection h with h1
                  rw [← h1]
                  exact decodePropsGenWith_cachePreserved _ ih fields s
                    (kvs, s1) hg

/-- Characterization of a successful `$uri`-object decode: the result is
the Item instance cached under the resolved canonical URI; when an
instance was already cached there before the decode, it is that very
instance (the decode merged into it instead of replacing it). -/
theorem decodeUriObjWith_item
    (rec : JSON → DecState → Except String (PValue × DecState))
    (hrec : ∀ j s r, rec j s = .ok r → cachePreserved s r.2)
    (pu : ParsedURI) (fields : List (String × JSON)) (s : DecState)
    (r : PValue × DecState)
    (h : decodeUriObjWith rec pu fields s = .ok r) :
    ∃ a, r.1 = .item a ∧ aGet r.2.cache pu.uri = some a ∧
      (∀ a0, aGet s.cache pu.uri = some a0 → a = a0) := by
  simp only [decodeUriObjWith] at h
  split at h
  · exact absurd h (by simp)
  · rename_i kvs s2 h2
    have hs1 : ∃ a1, aGet
        (if (aGet s.cache pu.uri).isSome then s
         else { s with cache := aSet s.cache pu.uri s.heap.length,
                       heap := s.heap ++ [⟨pu.resource, []⟩] }).cache pu.uri
          = some a1 ∧
        (∀ a0, aGet s.cache pu.uri = some a0 → a1 = a0) := by
      by_cases hx : (aGet s.cache pu.uri).isSome
      · rw [if_pos hx]
        cases hg : aGet s.cache pu.uri with
        | none => rw [hg] at hx; simp at hx
        | some a0 =>
            refine ⟨a0, rfl, ?_⟩
            intro a0' hb
            exact Option.some.inj hb
      · rw [if_neg hx]
        refine ⟨s.heap.length, aGet_aSet_self s.cache pu.uri s.heap.length, ?_⟩
        intro a0' hb
        rw [hb] at hx
        simp at hx
    obtain ⟨a1, ha1, ha1pin⟩ := hs1
    have hmono := decodePropsUriWith_cachePreserved rec hrec pu.uri fields _
      (kvs, s2) h2
    have ha1s2 : aGet s2.cache pu.uri = some a1 := hmono pu.uri a1 ha1
    split at h
    · rename_i addr hm
      have haddr : addr = a1 := by
        rw [hm] at ha1s2
        injection ha1s2 with hx1
      injection h with h1
      rw [← h1]
      refine ⟨addr, rfl, ?_, ?_⟩
      · exact hm
      · intro a0 hb
        rw [haddr]
        exact ha1pin a0 hb
    · rename_i hm
      rw [hm] at ha1s2
      exact Option.noConfusion ha1s2

/-- Claim C1. Decoding two wire payloads that both carry an object with the same
resolved `$uri` yields the same in-memory Item instance: `fromPotionJSON`
pre-registers a placeholder in the Identity Cache before decoding nested
properties and afterwards merges the decoded properties into the instance
cached under that URI rather than replacing it, so both decodes return one
address, which stays canonically bound in the cache (external holders of
the reference observe the update). -/
theorem identity_cache_canonical (cfg : Cfg) (server : Server)
    (n1 n2 : Nat) (s : DecState)
    (fields1 fields2 : List (String × JSON)) (u1 u2 : String)
    (pu1 pu2 : ParsedURI)
    (hu1 : getStr fields1 "$uri" = some u1)
    (hp1 : parseURI cfg u1 = .ok pu1)
    (hu2 : getStr fields2 "$uri" = some u2)
    (hp2 : parseURI cfg u2 = .ok pu2)
    (hsame : pu2.uri = pu1.uri)
    (r1 r2 : PValue × DecState)
    (hd1 : fromPotionJSON cfg server n1 (.obj fields1) s = .ok r1)
    (hd2 : fromPotionJSON cfg server n2 (.obj fields2) r1.2 = .ok r2) :
    ∃ a, r1.1 = .item a ∧ r2.1 = .item a ∧
      aGet r1.2.cache pu1.uri = some a ∧ aGet r2.2.cache pu1.uri = some a := by
  cases n1 with
  | zero => simp [fromPotionJSON] at hd1
  | succ m1 =>
      cases n2 with
      | zero => simp [fromPotionJSON] at hd2
      | succ m2 =>
          simp only [fromPotionJSON, hu1, hp1] at hd1
          simp only [fromPotionJSON, hu2, hp2] at hd2
          obtain ⟨a, hv1, hc1, _⟩ := decodeUriObjWith_item _
            (fromPotionJSON_cachePreserved cfg server m1) pu1 fields1 s r1 hd1
          obtain ⟨a2, hv2, hc2, hpin⟩ := decodeUriObjWith_item _
            (fromPotionJSON_cachePreserved cfg server m2) pu2 fields2 r1.2 r2 hd2
          have ha2 : a2 = a := by
            apply hpin
            rw [hsame]
            exact hc1
          rw [ha2] at hv2 hc2
          rw [hsame] at hc2
          exact ⟨a, hv1, hv2, hc1, hc2⟩

theorem identity_cache_canonical_witness :
    ∃ a, PValue.item 0 = PValue.item a ∧ PValue.item 0 = PValue.item a ∧
      aGet [("/widget/1", 0)] "/widget/1" = some a ∧
      aGet [("/widget/1", 0)] "/widget/1" = some a :=
  identity_cache_canonical ⟨"", "", [("/widget", 0)]⟩ (fun _ => .error .other)
    2 2 ⟨[], []⟩ [("$uri", .str "/widget/1")] [("$uri", .str "/widget/1")]
    "/widget/1" "/widget/1" ⟨"/widget/1", 0, ["1"]⟩ ⟨"/widget/1", 0, ["1"]⟩
    rfl rfl rfl rfl rfl
    (.item 0, ⟨[("/widget/1", 0)],
      [⟨0, [("$uri", .str "/widget/1"), ("$id", .num 1)]⟩]⟩)
    (.item 0, ⟨[("/widget/1", 0)],
      [⟨0, [("$uri", .str "/widget/1"), ("$id", .num 1)]⟩]⟩)
    rfl rfl

/-- Claim C6. On URIs fixed by `decodeURIComponent`, `parseURI` behaves exactly
as the claim describes (`parseURISpec`: strip the API-wide prefix when the
URI starts with it, return local URI / resource type / remainder split on
`/` for the first registered prefix followed by `/` that matches, else the
unknown-resource error); and inside the inbound transform such a failure
surfaces as the rejected result of the decode (`Except.error`, the model
of a rejected promise), not as a thrown exception. -/
theorem parseURI_spec_and_rejection (cfg : Cfg) (server : Server)
    (uri0 : String) (hdec : decodeURIComponent uri0 = some uri0) :
    parseURI cfg uri0 = parseURISpec cfg uri0 ∧
    (∀ fields u s fuel e, getStr fields "$uri" = some u →
      parseURI cfg u = .error e →
      fromPotionJSON cfg server (fuel + 1) (.obj fields) s = .error e) := by
  constructor
  · exact parseURI_eq_spec cfg uri0 hdec
  · intro fields u s fuel e hu hp
    simp only [fromPotionJSON, hu, hp]

theorem parseURI_spec_and_rejection_witness :
    parseURI ⟨"", "/api", [("/widget", 0)]⟩ "/api/widget/1" =
      parseURISpec ⟨"", "/api", [("/widget", 0)]⟩ "/api/widget/1" ∧
    fromPotionJSON ⟨"", "/api", [("/widget", 0)]⟩ (fun _ => .error .other) 1
      (.obj [("$uri", .str "/nope/1")]) ⟨[], []⟩ =
      .error (unknownURIMsg "/nope/1") :=
  ⟨(parseURI_spec_and_rejection ⟨"", "/api", [("/widget", 0)]⟩
      (fun _ => .error .other) "/api/widget/1" rfl).1,
   (parseURI_spec_and_rejection ⟨"", "/api", [("/widget", 0)]⟩
      (fun _ => .error .other) "/api/widget/1" rfl).2
     [("$uri", .str "/nope/1")] "/nope/1" ⟨[], []⟩ 0
     (unknownURIMsg "/nope/1") rfl rfl⟩

/-! ### Outbound transform -/

/-- `json.uri` of an Item instance.  Modelled from the spec: the missing
`./item` module's `uri` accessor reads the instance's stored locator,
which the decode stores under the `$uri` property. -/
def itemUri (heap : List ItemObj) (addr : Nat) : Option String :=
  match aGet ((heap.getD addr ⟨0, []⟩)).props "$uri" with
  | some (.str u) => some u
  | _ => none

/-- Array part of `toPotionJSON` (`json.map(...)`). -/
def encodeListWith (rec : PValue → Option JSON) : List PValue → Option (List JSON)
  | [] => some []
  | v :: t =>
      match rec v with
      | none => none
      | some j => (encodeListWith rec t).map (fun js => j :: js)

/-- Object part of `toPotionJSON` (`omap` with keys through `toSnakeCase`
and values recursively transformed). -/
def encodeFieldsWith (rec : PValue → Option JSON) :
    List (String × PValue) → Option (List (String × JSON))
  | [] => some []
  | kv :: t =>
      match rec kv.2 with
      | none => none
      | some j =>
          (encodeFieldsWith rec t).map (fun js => (toSnakeCase kv.1, j) :: js)

/-- `PotionBase.toPotionJSON` (src/core/potion.ts lines 248–262): an Item
with a string `uri` becomes the reference stub `{$ref: prefix + uri}`; a
`Date` becomes `{$date: ms}` (`dateInvalid` stands for an Invalid Date,
`{$date: NaN}`, modelled as a null payload); arrays map element-wise;
plain objects (and Items without a `uri`) have their keys snake-cased and
values recursively transformed; scalars pass through.  Fuel bounds the
recursion (`none` = out of fuel, a model artifact: JS recursion through a
cyclic uri-less object graph would not terminate either). -/
def toPotionJSON (pre : String) (heap : List ItemObj) :
    Nat → PValue → Option JSON
  | 0, _ => none
  | _+1, .null => some .null
  | _+1, .bool b => some (.bool b)
  | _+1, .num n => some (.num n)
  | _+1, .str s => some (.str s)
  | _+1, .date ms => some (.obj [("$date", .num ms)])
  | _+1, .dateInvalid => some (.obj [("$date", .null)])
  | fuel+1, .item addr =>
      match itemUri heap addr with
      | some u => some (.obj [("$ref", .str (pre ++ u))])
      | none =>
          (encodeFieldsWith (toPotionJSON pre heap fuel)
            ((heap.getD addr ⟨0, []⟩)).props).map .obj
  | fuel+1, .arr l => (encodeListWith (toPotionJSON pre heap fuel) l).map .arr
  | fuel+1, .obj fs => (encodeFieldsWith (toPotionJSON pre heap fuel) fs).map .obj

/-- Claim C8. Date round-trip: the outbound transform encodes a date value of
`m` epoch-milliseconds as the single-key object `{$date: m}`; the inbound
transform decodes `{$date: m}` to the date value built from `m` (leaving
the decode state untouched); hence decoding the outbound encoding of a
date yields an equal date. -/
theorem date_round_trip (pre : String) (heap : List ItemObj) (cfg : Cfg)
    (server : Server) (m : Int) (fuel1 fuel2 : Nat) (s : DecState) :
    toPotionJSON pre heap (fuel1 + 1) (.date m) =
      some (.obj [("$date", .num m)]) ∧
    fromPotionJSON cfg server (fuel2 + 1) (.obj [("$date", .num m)]) s =
      .ok (.date m, s) ∧
    (∃ j, toPotionJSON pre heap (fuel1 + 1) (.date m) = some j ∧
      fromPotionJSON cfg server (fuel2 + 1) j s = .ok (.date m, s)) := by
  refine ⟨rfl, ?_, ?_⟩
  · rfl
  · exact ⟨.obj [("$date", .num m)], rfl, rfl⟩

/-! ### The fetch decision layer

`PotionBase.fetch` (src/core/potion.ts lines 103–183).  Its synchronous
phase — everything up to and including issuing the transport request and
registering the Pending Request Table entry — is `fetchSync`; the
settlement continuation installed on a pending GET is `settleGET`.
Transport invocations are logged (`log`), so counting transport calls is
counting log entries; promise identity is a numeric handle (`nextId`). -/

/-- The caller-supplied `FetchOptions`: `method`, `search` (`none` models
`undefined`/`null`, the falsy cases of `!search`), `data`, the `cache`
flag, and `paginate`. -/
structure FetchOpts where
  method : Option String
  search : Option (List (String × JSON))
  data : Option JSON
  cache : Bool
  paginate : Bool

/-- Client state seen by `fetch`: the Identity Cache (URI ↦ item handle),
the Pending Request Table (`pendingGETRequests`, URI ↦ promise handle),
the transport log, and a counter for fresh promise handles. -/
structure FetchState where
  cache : List (String × Nat)
  pending : List (String × Nat)
  log : List String
  nextId : Nat

/-- What `fetch` returns: the cached item as an already-resolved promise,
the existing pending promise, a freshly issued (and registered) GET
request, or the direct non-deduplicated request promise. -/
inductive FetchResult where
  | resolved (item : Nat)
  | shared (pid : Nat)
  | issued (pid : Nat)
  | direct
deriving DecidableEq

/-- `Object.assign(target, source)`: source properties written over the
target in order. -/
def objAssign (target source : List (String × JSON)) : List (String × JSON) :=
  source.foldl (fun acc kv => aSet acc kv.1 kv.2) target

/-- The pending-table consultation of the GET path (lines 155–163): an
in-flight GET to the same (normalized) URI is returned as-is; otherwise
the request is issued (transport logged) and registered in the table. -/
def fetchPending (cfg : Cfg) (s : FetchState) (nuri : String) :
    FetchResult × FetchState :=
  match aGet s.pending nuri with
  | some pid => (.shared pid, s)
  | none =>
      (.issued s.nextId,
       { s with pending := aSet s.pending nuri s.nextId,
                log := s.log ++ [cfg.host ++ nuri],
                nextId := s.nextId + 1 })

/-- The synchronous phase of `fetch`: capture `key` (the unnormalized
URI) for the cache lookup, normalize the URI by prepending the prefix
when `uri.indexOf(prefix) === -1`, merge the pagination defaults under
the caller's search values when `paginate` is set, and then either take
the GET cache/de-dup path (`method === 'GET' && !search`) or invoke the
transport directly. -/
def fetchSync (cfg : Cfg) (s : FetchState) (uri : String) (opts : FetchOpts) :
    FetchResult × FetchState :=
  let key := uri
  let nuri := normalizeURI cfg.apiPrefix uri
  let search2 := if opts.paginate
    then some (objAssign [("page", JSON.num 1), ("perPage", JSON.num 25)]
      (opts.search.getD []))
    else opts.search
  if opts.method == some "GET" && search2.isNone then
    if opts.cache then
      match aGet s.cache key with
      | some item => (.resolved item, s)
      | none => fetchPending cfg s nuri
    else fetchPending cfg s nuri
  else
    (.direct, { s with log := s.log ++ [cfg.host ++ nuri] })

/-- The settlement continuation of a pending GET (lines 165–179): on
success and on failure alike the Pending Request Table entry is deleted;
a failure reason is normalized to the error's message, the raw string, or
the generic per-URI fallback. -/
def settleGET (s : FetchState) (nuri : String) (outcome : Except JSReason Nat) :
    FetchState × Except String Nat :=
  let s1 := { s with pending := aDel s.pending nuri }
  match outcome with
  | .ok d => (s1, .ok d)
  | .error e => (s1, .error (normalizeReason nuri e))

theorem normalizeURI_eq_contains (pre uri : String) :
    normalizeURI pre uri =
      if strContains uri pre then uri else pre ++ uri := by
  unfold normalizeURI
  by_cases h : jsIndexOf uri pre = -1
  · have hc : strContains uri pre = false := (jsIndexOf_neg_one_iff uri pre).mp h
    rw [if_pos h, hc]
    simp
  · have hc : ¬(strContains uri pre = false) := by
      intro hcc
      exact h ((jsIndexOf_neg_one_iff uri pre).mpr hcc)
    have hc2 : strContains uri pre = true := by
      cases hb : strContains uri pre with
      | false => exact absurd hb hc
      | true => rfl
    rw [if_neg h, hc2]
    simp

/-- Claim C5. `fetch` normalizes the request URI by prepending the API-wide
prefix exactly when the prefix is not already present in the URI, and any
transport invocation it makes is with the host concatenated with this
normalized URI (the log either is untouched — cache hit or shared pending
— or gains exactly that URL). -/
theorem fetch_uri_normalization (cfg : Cfg) (s : FetchState) (uri : String)
    (opts : FetchOpts) :
    (fetchSync cfg s uri opts).2.log = s.log ∨
    (fetchSync cfg s uri opts).2.log = s.log ++
      [cfg.host ++ (if strContains uri cfg.apiPrefix then uri
                    else cfg.apiPrefix ++ uri)] := by
  simp only [fetchSync, fetchPending, normalizeURI_eq_contains]
  repeat' split
  all_goals first
    | (left; rfl)
    | (right; rfl)

/-- Claim C4. Cache short-circuit: a GET fetch with no search parameters, the
`cache` option set, and an Identity Cache entry for the target URI
returns that cached item as an already-resolved result and leaves the
state — in particular the transport log — untouched: zero transport
calls. -/
theorem cache_short_circuit (cfg : Cfg) (s : FetchState) (uri : String)
    (opts : FetchOpts) (item : Nat)
    (hm : opts.method = some "GET") (hpag : opts.paginate = false)
    (hs : opts.search = none) (hco : opts.cache = true)
    (hhit : aGet s.cache uri = some item) :
    fetchSync cfg s uri opts = (.resolved item, s) := by
  simp [fetchSync, hm, hpag, hs, hco, hhit]

theorem cache_short_circuit_witness :
    fetchSync ⟨"", "", []⟩ ⟨[("/widget/1", 3)], [], [], 0⟩ "/widget/1"
      ⟨some "GET", none, none, true, false⟩ =
      (.resolved 3, ⟨[("/widget/1", 3)], [], [], 0⟩) :=
  cache_short_circuit ⟨"", "", []⟩ ⟨[("/widget/1", 3)], [], [], 0⟩
    "/widget/1" ⟨some "GET", none, none, true, false⟩ 3 rfl rfl rfl rfl rfl

/-- Claim C2, amended. A GET fetch with no search parameters that is not
served from the Identity Cache — its `cache` option is unset, or the
cache holds no entry for the URI — shares the in-flight request: the
first call issues exactly one transport request and registers it; a
second identical call made before settlement returns the very same
pending promise handle without touching the state, so the two concurrent
fetches cause exactly one transport call. -/
theorem get_dedup (cfg : Cfg) (s : FetchState) (uri : String)
    (opts : FetchOpts)
    (hm : opts.method = some "GET") (hpag : opts.paginate = false)
    (hs : opts.search = none)
    (hc : opts.cache = false ∨ aGet s.cache uri = none)
    (hp : aGet s.pending (normalizeURI cfg.apiPrefix uri) = none) :
    (fetchSync cfg s uri opts).1 = .issued s.nextId ∧
    (fetchSync cfg (fetchSync cfg s uri opts).2 uri opts).1 =
      .shared s.nextId ∧
    (fetchSync cfg (fetchSync cfg s uri opts).2 uri opts).2 =
      (fetchSync cfg s uri opts).2 ∧
    (fetchSync cfg s uri opts).2.log =
      s.log ++ [cfg.host ++ normalizeURI cfg.apiPrefix uri] := by
  have h1 : fetchSync cfg s uri opts =
      (.issued s.nextId,
       { s with
         pending := aSet s.pending (normalizeURI cfg.apiPrefix uri) s.nextId,
         log := s.log ++ [cfg.host ++ normalizeURI cfg.apiPrefix uri],
         nextId := s.nextId + 1 }) := by
    cases hco : opts.cache with
    | true =>
        have hcnone : aGet s.cache uri = none := by
          rcases hc with hcf | hcn
          · rw [hco] at hcf
            exact absurd hcf (by simp)
          · exact hcn
        simp [fetchSync, fetchPending, hm, hpag, hs, hco, hcnone, hp]
    | false => simp [fetchSync, fetchPending, hm, hpag, hs, hco, hp]
  have h2 : fetchSync cfg (fetchSync cfg s uri opts).2 uri opts =
      (.shared s.nextId, (fetchSync cfg s uri opts).2) := by
    rw [h1]
    cases hco : opts.cache with
    | true =>
        have hcnone : aGet s.cache uri = none := by
          rcases hc with hcf | hcn
          · rw [hco] at hcf
            exact absurd hcf (by simp)
          · exact hcn
        simp [fetchSync, fetchPending, hm, hpag, hs, hco, hcnone,
          aGet_aSet_self]
    | false =>
        simp [fetchSync, fetchPending, hm, hpag, hs, hco, aGet_aSet_self]
  refine ⟨by rw [h1], by rw [h2], by rw [h2], by rw [h1]⟩

theorem get_dedup_witness :
    (fetchSync ⟨"", "", []⟩ ⟨[], [], [], 0⟩ "/widget/1"
      ⟨some "GET", none, none, false, false⟩).1 = .issued 0 ∧
    (fetchSync ⟨"", "", []⟩ (fetchSync ⟨"", "", []⟩ ⟨[], [], [], 0⟩
      "/widget/1" ⟨some "GET", none, none, false, false⟩).2 "/widget/1"
      ⟨some "GET", none, none, false, false⟩).1 = .shared 0 ∧
    (fetchSync ⟨"", "", []⟩ (fetchSync ⟨"", "", []⟩ ⟨[], [], [], 0⟩
      "/widget/1" ⟨some "GET", none, none, false, false⟩).2 "/widget/1"
      ⟨some "GET", none, none, false, false⟩).2 =
      (fetchSync ⟨"", "", []⟩ ⟨[], [], [], 0⟩ "/widget/1"
        ⟨some "GET", none, none, false, false⟩).2 ∧
    (fetchSync ⟨"", "", []⟩ ⟨[], [], [], 0⟩ "/widget/1"
      ⟨some "GET", none, none, false, false⟩).2.log =
      [] ++ ["" ++ normalizeURI "" "/widget/1"] :=
  get_dedup ⟨"", "", []⟩ ⟨[], [], [], 0⟩ "/widget/1"
    ⟨some "GET", none, none, false, false⟩ rfl rfl rfl (Or.inl rfl) rfl

/-- Claim C2, as frozen, is false on the code: with the `cache` option set and
the Identity Cache holding the target URI, a GET fetch made while an
identical GET is still in flight returns the cached item as a resolved
promise — not the pending promise registered in the Pending Request
Table. -/
theorem get_dedup_cache_hit_counterexample :
    fetchSync ⟨"", "", []⟩ ⟨[("/widget/1", 3)], [("/widget/1", 7)], [], 9⟩
      "/widget/1" ⟨some "GET", none, none, true, false⟩ =
      (.resolved 3, ⟨[("/widget/1", 3)], [("/widget/1", 7)], [], 9⟩) ∧
    ∀ pid, (FetchResult.resolved 3) ≠ .shared pid := by
  constructor
  · rfl
  · intro pid h
    exact FetchResult.noConfusion h

/-- Claim C3. When a pending GET settles, its Pending Request Table entry is
removed on success and on failure alike, so an identical GET made after
settlement consults the transport afresh (the log grows by the request
URL); a failure reason is normalized to the underlying error's message
when it is an error carrying one, else the raw string when it is a
string, else the generic per-URI fallback — and a success value passes
through, so the detail is never lost. -/
theorem get_settlement_cleanup (cfg : Cfg) (s : FetchState) (nuri : String)
    (outcome : Except JSReason Nat)
    (hn : normalizeURI cfg.apiPrefix nuri = nuri) :
    aGet (settleGET s nuri outcome).1.pending nuri = none ∧
    (∀ m, outcome = .error (.jsError m) →
      (settleGET s nuri outcome).2 = .error m) ∧
    (∀ m, outcome = .error (.jsString m) →
      (settleGET s nuri outcome).2 = .error m) ∧
    (outcome = .error .other →
      (settleGET s nuri outcome).2 = .error (genericErrMsg nuri)) ∧
    (∀ d, outcome = .ok d → (settleGET s nuri outcome).2 = .ok d) ∧
    (∀ opts : FetchOpts, opts.method = some "GET" → opts.paginate = false →
      opts.search = none → opts.cache = false →
      (fetchSync cfg (settleGET s nuri outcome).1 nuri opts).2.log =
        (settleGET s nuri outcome).1.log ++ [cfg.host ++ nuri]) := by
  have hpend : (settleGET s nuri outcome).1.pending = aDel s.pending nuri := by
    cases outcome with
    | ok d => rfl
    | error e => rfl
  refine ⟨?_, ?_, ?_, ?_, ?_, ?_⟩
  · rw [hpend]
    exact aGet_aDel_self s.pending nuri
  · intro m he
    rw [he]
    rfl
  · intro m he
    rw [he]
    rfl
  · intro he
    rw [he]
    rfl
  · intro d hd
    rw [hd]
    rfl
  · intro opts hm hpag hs hco
    have hgone : aGet (settleGET s nuri outcome).1.pending nuri = none := by
      rw [hpend]
      exact aGet_aDel_self s.pending nuri
    simp [fetchSync, fetchPending, hm, hpag, hs, hco, hgone, hn]

theorem get_settlement_cleanup_witness :
    aGet (settleGET ⟨[], [("/widget/1", 7)], [], 8⟩ "/widget/1"
      (.error (.jsError "boom"))).1.pending "/widget/1" = none ∧
    (∀ m, (Except.error (JSReason.jsError "boom") : Except JSReason Nat) =
        .error (.jsError m) →
      (settleGET ⟨[], [("/widget/1", 7)], [], 8⟩ "/widget/1"
        (.error (.jsError "boom"))).2 = .error m) ∧
    (∀ m, (Except.error (JSReason.jsError "boom") : Except JSReason Nat) =
        .error (.jsString m) →
      (settleGET ⟨[], [("/widget/1", 7)], [], 8⟩ "/widget/1"
        (.error (.jsError "boom"))).2 = .error m) ∧
    ((Except.error (JSReason.jsError "boom") : Except JSReason Nat) =
        .error .other →
      (settleGET ⟨[], [("/widget/1", 7)], [], 8⟩ "/widget/1"
        (.error (.jsError "boom"))).2 = .error (genericErrMsg "/widget/1")) ∧
    (∀ d, (Except.error (JSReason.jsError "boom") : Except JSReason Nat) =
        .ok d →
      (settleGET ⟨[], [("/widget/1", 7)], [], 8⟩ "/widget/1"
        (.error (.jsError "boom"))).2 = .ok d) ∧
    (∀ opts : FetchOpts, opts.method = some "GET" → opts.paginate = false →
      opts.search = none → opts.cache = false →
      (fetchSync ⟨"", "", []⟩ (settleGET ⟨[], [("/widget/1", 7)], [], 8⟩
        "/widget/1" (.error (.jsError "boom"))).1 "/widget/1" opts).2.log =
        (settleGET ⟨[], [("/widget/1", 7)], [], 8⟩ "/widget/1"
          (.error (.jsError "boom"))).1.log ++ ["" ++ "/widget/1"]) :=
  get_settlement_cleanup ⟨"", "", []⟩ ⟨[], [("/widget/1", 7)], [], 8⟩
    "/widget/1" (.error (.jsError "boom")) rfl

/-! ### Item serialization (`Item.toJSON`, src/unnamed/part_000 lines 440–452) -/

/-- The filter of `Item.toJSON`: keep a key unless it is
underscore-prefixed or marked read-only in the constructor's
`READONLY_METADATA_KEY` metadata (`meta`, `none` when the decorator never
ran for the type: `!metadata || (metadata && !metadata[key])`). -/
def keepKey (meta : Option (List String)) (k : String) : Bool :=
  !(strStarts k "_") &&
    (match meta with
     | none => true
     | some m => !(m.contains k))

/-- `Item.toJSON`: iterate the instance's own enumerable properties, keep
the non-private non-readonly ones, and assign each under its wire-cased
(snake_case) key. -/
def Item.toJSON (meta : Option (List String))
    (props : List (String × PValue)) : List (String × PValue) :=
  props.foldl
    (fun acc kv =>
      if keepKey meta kv.1 then aSet acc (fromCamelCase kv.1) kv.2 else acc)
    []

theorem mem_aSet {α : Type} (l : List (String × α)) (k : String) (v : α)
    (p : String × α) (h : p ∈ aSet l k v) : p = (k, v) ∨ p ∈ l := by
  induction l with
  | nil =>
      simp [aSet] at h
      left
      exact h
  | cons kv rest ih =>
      by_cases hk : kv.1 = k
      · rw [aSet, if_pos hk] at h
        rcases List.mem_cons.mp h with h1 | h1
        · left; exact h1
        · right; exact List.mem_cons_of_mem kv h1
      · rw [aSet, if_neg hk] at h
        rcases List.mem_cons.mp h with h1 | h1
        · right; exact List.mem_cons.mpr (Or.inl h1)
        · rcases ih h1 with h2 | h2
          · left; exact h2
          · right; exact List.mem_cons_of_mem kv h2

theorem lowerAZ_ne_underscore (c : Char) (hc : ¬(c = '_')) :
    ¬(lowerAZ c = '_') := by
  unfold lowerAZ
  cases hf : azPairs.find? (fun p => p.1 == c) with
  | none => exact hc
  | some q =>
      have hmem := List.mem_of_find?_eq_some hf
      have hall : ∀ q2 ∈ azPairs, ¬(q2.2 = '_') := by decide
      exact hall q hmem

theorem fromCamelCase_no_underscore_start (k : String)
    (hk : strStarts k "_" = false) :
    strStarts (fromCamelCase k) "_" = false := by
  cases k with
  | mk l =>
      cases l with
      | nil => rfl
      | cons c rest =>
          have hc : ¬(c = '_') := by
            intro hceq
            rw [hceq] at hk
            simp [strStarts, List.isPrefixOf] at hk
          have hlc := lowerAZ_ne_underscore c hc
          simp [fromCamelCase, strStarts, List.isPrefixOf]
          intro hcontra
          exact hlc hcontra.symm

theorem toJSON_fold_mem (meta : Option (List String)) :
    ∀ (l : List (String × PValue)) (acc : List (String × PValue))
      (p : String × PValue),
      p ∈ l.foldl
        (fun acc kv =>
          if keepKey meta kv.1 then aSet acc (fromCamelCase kv.1) kv.2 else acc)
        acc →
      p ∈ acc ∨ ∃ k, (k, p.2) ∈ l ∧ p.1 = fromCamelCase k ∧
        strStarts k "_" = false ∧ (∀ m, meta = some m → k ∉ m) := by
  intro l
  induction l with
  | nil =>
      intro acc p h
      left
      exact h
  | cons kv rest ih =>
      intro acc p h
      simp only [List.foldl_cons] at h
      rcases ih _ p h with hacc | ⟨k, hk, hpk, hus, hro⟩
      · by_cases hkeep : keepKey meta kv.1
        · rw [if_pos hkeep] at hacc
          rcases mem_aSet acc (fromCamelCase kv.1) kv.2 p hacc with hnew | hold
          · right
            refine ⟨kv.1, ?_, ?_, ?_, ?_⟩
            · rw [hnew]
              exact List.mem_cons.mpr (Or.inl rfl)
            · rw [hnew]
            · have := hkeep
              unfold keepKey at this
              exact (Bool.and_eq_true _ _).mp this |>.1 |> fun hx => by
                cases hb : strStarts kv.1 "_" with
                | false => rfl
                | true => rw [hb] at hx; exact absurd hx (by simp)
            · intro m hm
              have := hkeep
              unfold keepKey at this
              rw [hm] at this
              have h2 := (Bool.and_eq_true _ _).mp this |>.2
              have h2' : (!(m.contains kv.1)) = true := h2
              intro hmem
              have hcon : m.contains kv.1 = true := by
                simpa using hmem
              rw [hcon] at h2'
              exact absurd h2' (by simp)
          · left; exact hold
        · rw [if_neg hkeep] at hacc
          left; exact hacc
      · right
        exact ⟨k, List.mem_cons_of_mem kv hk, hpk, hus, hro⟩

/-- Claim C7. Every entry of `Item.toJSON` comes from an own property whose key
is not underscore-prefixed and not marked read-only for the item's type;
the entry's key is that key rendered through the wire-casing (snake_case)
codec, and in particular the output contains no underscore-prefixed key. -/
theorem toJSON_excludes_private_readonly (meta : Option (List String))
    (props : List (String × PValue)) :
    ∀ p ∈ Item.toJSON meta props,
      strStarts p.1 "_" = false ∧
      ∃ k, (k, p.2) ∈ props ∧ p.1 = fromCamelCase k ∧
        strStarts k "_" = false ∧ (∀ m, meta = some m → k ∉ m) := by
  intro p hp
  rcases toJSON_fold_mem meta props [] p hp with hacc | ⟨k, hk, hpk, hus, hro⟩
  · exact absurd hacc (List.not_mem_nil p)
  · refine ⟨?_, k, hk, hpk, hus, hro⟩
    rw [hpk]
    exact fromCamelCase_no_underscore_start k hus

theorem toJSON_excludes_private_readonly_witness :
    strStarts "foo_bar" "_" = false ∧
    ∃ k, (k, PValue.num 1) ∈
        [("fooBar", PValue.num 1), ("_uri", PValue.str "/x"),
         ("secret", PValue.num 2)] ∧
      "foo_bar" = fromCamelCase k ∧ strStarts k "_" = false ∧
      (∀ m, (some ["secret"] : Option (List String)) = some m → k ∉ m) :=
  toJSON_excludes_private_readonly (some ["secret"])
    [("fooBar", PValue.num 1), ("_uri", PValue.str "/x"),
     ("secret", PValue.num 2)]
    ("foo_bar", PValue.num 1)
    (by
      show ("foo_bar", PValue.num 1) ∈
        Item.toJSON (some ["secret"])
          [("fooBar", PValue.num 1), ("_uri", PValue.str "/x"),
           ("secret", PValue.num 2)]
      exact List.Mem.head _)

/-! ### Pagination (src/unnamed/part_000: `Pagination`, lines 777–857) -/

theorem aGet_objAssign_not_mem (src : List (String × JSON)) :
    ∀ (t : List (String × JSON)) (k : String),
      (∀ kv ∈ src, kv.1 ≠ k) → aGet (objAssign t src) k = aGet t k := by
  induction src with
  | nil => intro t k _; rfl
  | cons x rest ih =>
      intro t k hne
      have hx : x.1 ≠ k := hne x (List.mem_cons.mpr (Or.inl rfl))
      have hrest : ∀ kv ∈ rest, kv.1 ≠ k := fun kv hm =>
        hne kv (List.mem_cons_of_mem x hm)
      show aGet (objAssign (aSet t x.1 x.2) rest) k = aGet t k
      rw [ih (aSet t x.1 x.2) k hrest]
      exact aGet_aSet_ne t x.1 k x.2 hx

theorem aGet_objAssign_of_nodup (src : List (String × JSON)) :
    ∀ (t : List (String × JSON)) (k : String) (v : JSON),
      (src.map Prod.fst).Nodup → aGet src k = some v →
      aGet (objAssign t src) k = some v := by
  induction src with
  | nil =>
      intro t k v _ h
      exact absurd h (by simp [aGet])
  | cons x rest ih =>
      intro t k v hnd hget
      have hnd2 : ¬(x.1 ∈ rest.map Prod.fst) ∧ (rest.map Prod.fst).Nodup :=
        List.nodup_cons.mp hnd
      by_cases hx : x.1 = k
      · subst hx
        have hget2 : some x.2 = some v := by
          rw [← hget]
          simp [aGet]
        injection hget2 with hv
        have hrest : ∀ kv ∈ rest, kv.1 ≠ x.1 := by
          intro kv hm hkv
          exact hnd2.1 (List.mem_map.mpr ⟨kv, hm, hkv⟩)
        show aGet (objAssign (aSet t x.1 x.2) rest) x.1 = some v
        rw [aGet_objAssign_not_mem rest (aSet t x.1 x.2) x.1 hrest]
        rw [aGet_aSet_self t x.1 x.2, hv]
      · have hget2 : aGet rest k = some v := by
          rw [← hget]
          simp [aGet, hx]
        show aGet (objAssign (aSet t x.1 x.2) rest) k = some v
        exact ih (aSet t x.1 x.2) k v hnd2.2 hget2

theorem mem_keys_aSet {α : Type} (l : List (String × α)) (k : String) (v : α) :
    ∀ x, x ∈ (aSet l k v).map Prod.fst → x = k ∨ x ∈ l.map Prod.fst := by
  induction l with
  | nil =>
      intro x h
      simp [aSet] at h
      left
      exact h
  | cons kv rest ih =>
      intro x h
      by_cases hk : kv.1 = k
      · rw [aSet, if_pos hk] at h
        simp only [List.map_cons, List.mem_cons] at h
        rcases h with h1 | h1
        · left; exact h1
        · right
          exact List.mem_cons_of_mem kv.1 h1
      · rw [aSet, if_neg hk] at h
        simp only [List.map_cons, List.mem_cons] at h
        rcases h with h1 | h1
        · right
          rw [h1]
          exact List.mem_cons.mpr (Or.inl rfl)
        · rcases ih x h1 with h2 | h2
          · left; exact h2
          · right; exact List.mem_cons_of_mem kv.1 h2

theorem nodup_keys_aSet {α : Type} (l : List (String × α)) (k : String) (v : α)
    (h : (l.map Prod.fst).Nodup) : ((aSet l k v).map Prod.fst).Nodup := by
  induction l with
  | nil => simp [aSet]
  | cons kv rest ih =>
      have h2 : ¬(kv.1 ∈ rest.map Prod.fst) ∧ (rest.map Prod.fst).Nodup :=
        List.nodup_cons.mp h
      by_cases hk : kv.1 = k
      · rw [aSet, if_pos hk]
        simp only [List.map_cons]
        refine List.nodup_cons.mpr ⟨?_, h2.2⟩
        rw [← hk]
        exact h2.1
      · rw [aSet, if_neg hk]
        simp only [List.map_cons]
        refine List.nodup_cons.mpr ⟨?_, ih h2.2⟩
        intro hmem
        rcases mem_keys_aSet rest k v kv.1 hmem with h3 | h3
        · exact hk h3
        · exact h2.1 h3

/-- `Math.ceil(total / perPage)` over the rationals equals the integer
formula `(total + perPage - 1) / perPage`. -/
theorem ceil_div_nat (t pp : Nat) (hpp : 0 < pp) :
    Int.ceil ((t : ℚ) / (pp : ℚ)) = (((t + pp - 1) / pp : Nat) : Int) := by
  have hpos : (0 : ℚ) < (pp : ℚ) := by exact_mod_cast hpp
  have hdm := Nat.div_add_mod (t + pp - 1) pp
  have hmod := Nat.mod_lt (t + pp - 1) hpp
  have hA : pp * ((t + pp - 1) / pp) < t + pp := by omega
  have hB : t ≤ pp * ((t + pp - 1) / pp) := by omega
  have hA2 : (pp : ℚ) * (((t + pp - 1) / pp : Nat) : ℚ) < (t : ℚ) + (pp : ℚ) := by
    exact_mod_cast hA
  have hB2 : (t : ℚ) ≤ (pp : ℚ) * (((t + pp - 1) / pp : Nat) : ℚ) := by
    exact_mod_cast hB
  rw [Int.ceil_eq_iff]
  simp only [Int.cast_natCast]
  constructor
  · rw [lt_div_iff₀ hpos]
    nlinarith [hA2]
  · rw [div_le_iff₀ hpos]
    nlinarith [hB2]

/-- The Pagination Cursor (`Pagination<T>`): requesting URI, the stored
request options' `search` object (the other option fields pass through
`fetch` unchanged and are omitted), current page, page size, total count,
the current page's item list, and the iterator pointer. -/
structure Cursor where
  uri : String
  search : List (String × JSON)
  page : Int
  perPage : Nat
  total : Nat
  items : List PValue
  pointer : Nat

/-- `Pagination.pages` (lines 789–791): `Math.ceil(this._total / this._perPage)`. -/
def Cursor.pages (c : Cursor) : Int :=
  Int.ceil ((c.total : ℚ) / (c.perPage : ℚ))

/-- `Pagination.update` (lines 849–852): splice the whole item list out in
favor of the new one and replace the total. -/
def Cursor.update (c : Cursor) (items : List PValue) (count : Nat) : Cursor :=
  { c with items := items, total := count }

/-- Whether the pagination tail of `fetch` built a fresh cursor or updated
the given one in place. -/
inductive PaginateOutcome where
  | freshCursor (c : Cursor)
  | updatedInPlace (c : Cursor)

/-- The pagination tail of `fetch` (lines 656–664): with no pagination
target, construct a new `Pagination` (page and page size destructured from
`options.search`; absent values are modelled as 0 — that branch carries no
claim); with a target, update it in place via `update`. -/
def paginateFinish (pg : Option Cursor) (uri : String)
    (search : List (String × JSON)) (data : List PValue) (count : Nat) :
    PaginateOutcome :=
  match pg with
  | none =>
      .freshCursor ⟨uri, search,
        (match aGet search "page" with | some (.num n) => n | _ => 0),
        (match aGet search "perPage" with | some (.num n) => n.toNat | _ => 0),
        count, data, 0⟩
  | some c => .updatedInPlace (c.update data count)

/-- `Pagination.changePageTo` (lines 843–847) composed with the `fetch` it
re-invokes with `this` as the pagination target: write `page` into the
stored search options, set `_page`, let `fetch` merge the `page=1,
perPage=25` defaults under the caller values (the caller's `page` wins)
into `options.search`, and — the transport having answered `data`/`count`
— update the same cursor in place.  Returns the merged search object that
the transport request carries, and the pagination outcome. -/
def changePageTo (c : Cursor) (n : Int) (data : List PValue) (count : Nat) :
    (List (String × JSON)) × PaginateOutcome :=
  let c1 := { c with search := aSet c.search "page" (.num n), page := n }
  let merged := objAssign [("page", JSON.num 1), ("perPage", JSON.num 25)]
    c1.search
  let c2 := { c1 with search := merged }
  (merged, paginateFinish (some c2) c2.uri merged data count)

/-- Claim C9. `pages` is the ceiling of `total / perPage` (integer formula; for
`total = 101, perPage = 25` it is 5), and `changePageTo n` writes
`page = n` into the stored search options, re-fetches with `page = n` in
the request search, and replaces the item list and total in place on the
same cursor (no new cursor is constructed; every other cursor field is
unchanged). -/
theorem pagination_pages_and_changePageTo (c : Cursor) (n : Int)
    (data : List PValue) (count : Nat) (hpp : 0 < c.perPage)
    (hnd : (c.search.map Prod.fst).Nodup) :
    Cursor.pages c = (((c.total + c.perPage - 1) / c.perPage : Nat) : Int) ∧
    (c.total = 101 → c.perPage = 25 → Cursor.pages c = 5) ∧
    aGet (changePageTo c n data count).1 "page" = some (.num n) ∧
    (∃ c2, (changePageTo c n data count).2 = .updatedInPlace c2 ∧
      c2.items = data ∧ c2.total = count ∧ c2.page = n ∧
      aGet c2.search "page" = some (.num n) ∧
      c2.uri = c.uri ∧ c2.perPage = c.perPage ∧ c2.pointer = c.pointer) := by
  have hmerged : aGet (objAssign [("page", JSON.num 1), ("perPage", JSON.num 25)]
      (aSet c.search "page" (.num n))) "page" = some (.num n) := by
    apply aGet_objAssign_of_nodup
    · exact nodup_keys_aSet c.search "page" (.num n) hnd
    · exact aGet_aSet_self c.search "page" (.num n)
  refine ⟨ceil_div_nat c.total c.perPage hpp, ?_, ?_, ?_⟩
  · intro ht hpp2
    unfold Cursor.pages
    rw [ht, hpp2]
    have h1 := ceil_div_nat 101 25 (by decide)
    rw [h1]
    decide
  · exact hmerged
  · refine ⟨_, rfl, rfl, rfl, rfl, hmerged, rfl, rfl, rfl⟩

theorem pagination_witness :
    Cursor.pages ⟨"/widget", [("page", JSON.num 1), ("perPage", JSON.num 25)],
        1, 25, 101, [], 0⟩ =
      (((101 + 25 - 1) / 25 : Nat) : Int) ∧
    ((101 : Nat) = 101 → (25 : Nat) = 25 →
      Cursor.pages ⟨"/widget", [("page", JSON.num 1), ("perPage", JSON.num 25)],
        1, 25, 101, [], 0⟩ = 5) ∧
    aGet (changePageTo ⟨"/widget",
        [("page", JSON.num 1), ("perPage", JSON.num 25)], 1, 25, 101, [], 0⟩
        3 [] 101).1 "page" = some (.num 3) ∧
    (∃ c2, (changePageTo ⟨"/widget",
        [("page", JSON.num 1), ("perPage", JSON.num 25)], 1, 25, 101, [], 0⟩
        3 [] 101).2 = .updatedInPlace c2 ∧
      c2.items = [] ∧ c2.total = 101 ∧ c2.page = 3 ∧
      aGet c2.search "page" = some (.num 3) ∧
      c2.uri = "/widget" ∧ c2.perPage = 25 ∧ c2.pointer = 0) :=
  pagination_pages_and_changePageTo
    ⟨"/widget", [("page", JSON.num 1), ("perPage", JSON.num 25)],
      1, 25, 101, [], 0⟩ 3 [] 101 (by decide) (by decide)

/-! ### Caller-options immutability (`fetch`, src/core/potion.ts lines 103–120)

The only two object-producing steps in the option-preparation phase are
the shallow copy `{...fetchOptions}` and, under `paginate`, the fresh
`Object.assign({page: 1, perPage: 25}, search)` target assigned into the
copy.  To talk about mutation at all, this slice is modelled on an
explicit heap of JS objects: the caller's options object is an address,
its `search` property may reference another address, and the claim is a
frame property — every pre-existing address holds the same object after
the preparation.  The later steps of `fetch` (spreading the copy into the
request argument and running `toPotionJSON` over `search`/`data`) build
fresh values only and are pure in this development. -/

/-- JS values stored in object properties: primitives plus references to
heap objects. -/
inductive JsVal where
  | undef
  | jsNull
  | bool (b : Bool)
  | num (n : Int)
  | str (s : String)
  | ref (addr : Nat)
deriving DecidableEq

/-- JS truthiness. -/
def truthy : JsVal → Bool
  | .undef => false
  | .jsNull => false
  | .bool b => b
  | .num n => n != 0
  | .str s => s != ""
  | .ref _ => true

/-- `Object.assign(target, source)` over heap-level objects. -/
def objAssignJs (target source : List (String × JsVal)) :
    List (String × JsVal) :=
  source.foldl (fun acc kv => aSet acc kv.1 kv.2) target

/-- The option-preparation phase of `fetch`: allocate the shallow copy
`{...fetchOptions}` of the object at `p`; if its `paginate` property is
truthy, allocate the fresh merged search object
`Object.assign({page: 1, perPage: 25}, search)` and assign a reference to
it into the copy's `search` property.  Returns the heap and the copy's
address. -/
def fetchPrep (heap : List (List (String × JsVal))) (p : Nat) :
    List (List (String × JsVal)) × Nat :=
  let orig := heap.getD p []
  let c := heap.length
  let heap1 := heap ++ [orig]
  if truthy ((aGet orig "paginate").getD .undef) then
    let searchFields :=
      match aGet orig "search" with
      | some (.ref q) => heap1.getD q []
      | _ => []
    let merged := objAssignJs [("page", .num 1), ("perPage", .num 25)]
      searchFields
    let m := heap1.length
    let heap2 := heap1 ++ [merged]
    (heap2.set c (aSet orig "search" (.ref m)), c)
  else (heap1, c)

theorem getD_append_lt {α : Type} (l1 : List α) :
    ∀ (l2 : List α) (i : Nat) (d : α), i < l1.length →
      (l1 ++ l2).getD i d = l1.getD i d := by
  induction l1 with
  | nil =>
      intro l2 i d h
      exact absurd h (by simp)
  | cons a t ih =>
      intro l2 i d h
      cases i with
      | zero => rfl
      | succ j =>
          have hj : j < t.length := by
            simpa using h
          simpa [List.getD] using ih l2 j d hj

theorem getD_set_ne {α : Type} (l : List α) :
    ∀ (n i : Nat) (a d : α), ¬(i = n) →
      (l.set n a).getD i d = l.getD i d := by
  induction l with
  | nil => intro n i a d _; rfl
  | cons b t ih =>
      intro n i a d h
      cases n with
      | zero =>
          cases i with
          | zero => exact absurd rfl h
          | succ j => rfl
      | succ k =>
          cases i with
          | zero => rfl
          | succ j =>
              have hj : ¬(j = k) := by
                intro he
                exact h (by rw [he])
              simpa [List.getD] using ih k j a d hj

theorem getD_set_self {α : Type} (l : List α) :
    ∀ (n : Nat) (a d : α), n < l.length → (l.set n a).getD n d = a := by
  induction l with
  | nil =>
      intro n a d h
      exact absurd h (by simp)
  | cons b t ih =>
      intro n a d h
      cases n with
      | zero => rfl
      | succ k =>
          have hk : k < t.length := by simpa using h
          simpa [List.getD] using ih k a d hk

/-- Claim C10. `fetch` never mutates the caller-supplied options object: after
the preparation phase every pre-existing heap address holds exactly what
it held before (in particular the caller's options object at `p` and the
search object it references), and when `paginate` is set the copy's
`search` property points at a freshly allocated object, not at any
pre-existing one. -/
theorem fetch_does_not_mutate_options
    (heap : List (List (String × JsVal))) (p : Nat) (hp : p < heap.length) :
    (∀ i, i < heap.length →
      ((fetchPrep heap p).1).getD i [] = heap.getD i []) ∧
    (truthy ((aGet (heap.getD p []) "paginate").getD .undef) = true →
      ∃ m, heap.length ≤ m ∧
        aGet (((fetchPrep heap p).1).getD ((fetchPrep heap p).2) [])
          "search" = some (.ref m)) := by
  by_cases hpag : truthy ((aGet (heap.getD p []) "paginate").getD .undef) = true
  · constructor
    · intro i hi
      show ((fetchPrep heap p).1).getD i [] = heap.getD i []
      simp only [fetchPrep, hpag, if_true]
      rw [getD_set_ne _ heap.length i _ [] (by omega)]
      rw [getD_append_lt _ _ i [] (by simpa using Nat.lt_succ_of_lt hi)]
      exact getD_append_lt heap _ i [] hi
    · intro _
      refine ⟨heap.length + 1, by omega, ?_⟩
      show aGet (((fetchPrep heap p).1).getD ((fetchPrep heap p).2) [])
        "search" = some (.ref (heap.length + 1))
      simp only [fetchPrep, hpag, if_true]
      rw [getD_set_self _ heap.length _ [] (by simp)]
      have hlen : (heap ++ [heap.getD p []]).length = heap.length + 1 := by
        simp
      rw [hlen]
      exact aGet_aSet_self _ "search" (JsVal.ref (heap.length + 1))
  · constructor
    · intro i hi
      show ((fetchPrep heap p).1).getD i [] = heap.getD i []
      simp only [fetchPrep, hpag, if_false]
      exact getD_append_lt heap _ i [] hi
    · intro hcon
      exact absurd hcon hpag

theorem fetch_does_not_mutate_options_witness :
    (∀ i, i < 2 →
      ((fetchPrep [[("paginate", JsVal.bool true),
          ("search", JsVal.ref 1)], [("page", JsVal.num 7)]] 0).1).getD i [] =
        ([[("paginate", JsVal.bool true), ("search", JsVal.ref 1)],
          [("page", JsVal.num 7)]] :
            List (List (String × JsVal))).getD i []) ∧
    (truthy ((aGet (([[("paginate", JsVal.bool true),
          ("search", JsVal.ref 1)], [("page", JsVal.num 7)]] :
            List (List (String × JsVal))).getD 0 [])
        "paginate").getD .undef) = true →
      ∃ m, 2 ≤ m ∧
        aGet (((fetchPrep [[("paginate", JsVal.bool true),
            ("search", JsVal.ref 1)], [("page", JsVal.num 7)]] 0).1).getD
          ((fetchPrep [[("paginate", JsVal.bool true),
            ("search", JsVal.ref 1)], [("page", JsVal.num 7)]] 0).2) [])
          "search" = some (.ref m)) :=
  fetch_does_not_mutate_options
    [[("paginate", JsVal.bool true), ("search", JsVal.ref 1)],
     [("page", JsVal.num 7)]] 0 (by decide)
